import Mathlib

/-!
Verification of the Step Runner / idempotent-orchestration engine of
hive-mcp-cli (package `internal/setup`).

The Go interface `Step` exposes four methods; in this shallow embedding a
step is a record of the observable behaviour of each method: `check`
models `Check() (bool, error)` as a pair of the boolean and an optional
error message (Go `nil` error = `none`), `run` and `rollback` model the
optional error each method returns.  `Runner.RunAll` and
`Runner.RollbackFrom` are translated statement by statement into pure
functions that additionally record an event trace (which `Check`, `Run`
and `Rollback` calls happen, at which step index) and a log of the
observer-callback invocations, so that claims about calls "never being
invoked" and about the callbacks being pure observers are statable.
-/

namespace HiveSetup

/-- Go error values: `none` models a nil error, `some msg` a non-nil one. -/
abbrev Err := String

/-- Observable behaviour of one `setup.Step`.  `check` is the pair returned
by `Check()`, `run` and `rollback` the errors returned by `Run()` and
`Rollback()`. -/
structure Step where
  name : String
  check : Bool × Option Err
  run : Option Err
  rollback : Option Err
deriving DecidableEq

/-- Embedding of `setup.Result`: outcome of attempting one step. -/
structure Result where
  stepName : String
  skipped : Bool
  error : Option Err
deriving DecidableEq

/-- Events recording which step methods the runner actually invokes,
tagged with the index of the step in `Runner.Steps`. -/
inductive Ev where
  | checkEv (i : Nat)
  | runEv (i : Nat)
  | rollbackEv (i : Nat)
deriving DecidableEq

/-- Index of the step an event concerns. -/
def Ev.idx : Ev → Nat
  | checkEv i => i
  | runEv i => i
  | rollbackEv i => i

/-- Which of the two optional observer callbacks of a `Runner` are non-nil. -/
structure Callbacks where
  onStart : Bool
  onDone : Bool
deriving DecidableEq

/-- Invocations of the observer callbacks (their only observable effect is
console output, modelled as this log). -/
inductive CbEv where
  | start (i : Nat)
  | done (i : Nat) (skipped : Bool) (err : Option Err)
deriving DecidableEq

/-- Everything `Runner.RunAll` produces: the appended `Results`, the
returned error, the trace of step-method calls, and the callback log. -/
structure RunOutcome where
  results : List Result
  retErr : Option Err
  trace : List Ev
  cbLog : List CbEv
deriving DecidableEq

/-- Log entries of the `if r.OnStart != nil { r.OnStart(step) }` guard. -/
def cbStart (cb : Callbacks) (i : Nat) : List CbEv :=
  if cb.onStart then [CbEv.start i] else []

/-- Log entries of the `if r.OnDone != nil { r.OnDone(step, sk, e) }` guard. -/
def cbDone (cb : Callbacks) (i : Nat) (sk : Bool) (e : Option Err) : List CbEv :=
  if cb.onDone then [CbEv.done i sk e] else []

/-- Embedding of the loop body of `Runner.RunAll`, processing the remaining
steps; `i` is the index of the first remaining step in the original list.
Each branch mirrors one path of the Go loop: `Check` error aborts, `done`
skips, `Run` error aborts, otherwise continue. -/
def runAllAux (cb : Callbacks) : List Step → Nat → RunOutcome
  | [], _ => ⟨[], none, [], []⟩
  | s :: rest, i =>
    match s.check with
    | (_, some e) =>
        ⟨[⟨s.name, false, some e⟩],
         some ("check failed for " ++ s.name ++ ": " ++ e),
         [Ev.checkEv i],
         cbStart cb i ++ cbDone cb i false (some e)⟩
    | (true, none) =>
        let o := runAllAux cb rest (i + 1)
        ⟨⟨s.name, true, none⟩ :: o.results, o.retErr,
         Ev.checkEv i :: o.trace,
         cbStart cb i ++ cbDone cb i true none ++ o.cbLog⟩
    | (false, none) =>
        match s.run with
        | some e =>
            ⟨[⟨s.name, false, some e⟩],
             some ("step " ++ s.name ++ " failed: " ++ e),
             [Ev.checkEv i, Ev.runEv i],
             cbStart cb i ++ cbDone cb i false (some e)⟩
        | none =>
            let o := runAllAux cb rest (i + 1)
            ⟨⟨s.name, false, none⟩ :: o.results, o.retErr,
             Ev.checkEv i :: Ev.runEv i :: o.trace,
             cbStart cb i ++ cbDone cb i false none ++ o.cbLog⟩

/-- Embedding of `Runner.RunAll`: run the whole step list from index 0. -/
def runAll (cb : Callbacks) (steps : List Step) : RunOutcome :=
  runAllAux cb steps 0

/-- Wrapped rollback error `fmt.Errorf("rollback %s: %w", name, err)`. -/
def rbWrap (s : Step) : Option Err :=
  s.rollback.map (fun e => "rollback " ++ s.name ++ ": " ++ e)

/-- Body of the `RollbackFrom` loop over the list of visited indices: the
`i < len(r.Steps)` bounds guard is the `steps[i]?` lookup, a rollback error
is collected (never aborting) and every in-bounds visit emits an event. -/
def rollbackGo (steps : List Step) : List Nat → List Err × List Ev
  | [] => ([], [])
  | i :: rest =>
    let tl := rollbackGo steps rest
    match steps[i]? with
    | none => tl
    | some s =>
      match s.rollback with
      | some e =>
          (("rollback " ++ s.name ++ ": " ++ e) :: tl.1, Ev.rollbackEv i :: tl.2)
      | none => (tl.1, Ev.rollbackEv i :: tl.2)

/-- Indices visited by `for i := index; i >= 0; i--`:
`index, index-1, ..., 0`, empty when `index` is negative. -/
def rollbackPositions (index : Int) : List Nat :=
  if index < 0 then [] else (List.range (index.toNat + 1)).reverse

/-- Embedding of `Runner.RollbackFrom(index)`: collected wrapped errors in
encounter order, together with the trace of `Rollback()` invocations. -/
def rollbackFrom (steps : List Step) (index : Int) : List Err × List Ev :=
  rollbackGo steps (rollbackPositions index)

/-- Error with which a step aborts the run (`none` when it completes):
a `Check` error aborts; `done=true` skips; otherwise `Run`'s error decides. -/
def stepAbortErr (s : Step) : Option Err :=
  match s.check with
  | (_, some e) => some e
  | (true, none) => none
  | (false, none) => s.run

/-- A step completes (skipped or succeeded) rather than aborting the run. -/
def stepOk (s : Step) : Prop := stepAbortErr s = none

instance : DecidablePred stepOk := fun s => by
  unfold stepOk
  infer_instance

/-- Result recorded for a step that completes: skipped iff `Check` said done. -/
def okResult (s : Step) : Result := ⟨s.name, s.check.1, none⟩

/-- Method calls made on a completing step at index `i`. -/
def okEvents (s : Step) (i : Nat) : List Ev :=
  if s.check.1 then [Ev.checkEv i] else [Ev.checkEv i, Ev.runEv i]

/-- Trace of a run in which every step completes, starting at index `i`. -/
def okTrace : List Step → Nat → List Ev
  | [], _ => []
  | s :: rest, i => okEvents s i ++ okTrace rest (i + 1)

/-- Result recorded for the step that aborts the run. -/
def failResult (s : Step) : Result := ⟨s.name, false, stepAbortErr s⟩

/-- Wrapped error `RunAll` returns when step `s` aborts the run. -/
def wrapAbort (s : Step) : Option Err :=
  match s.check with
  | (_, some e) => some ("check failed for " ++ s.name ++ ": " ++ e)
  | (true, none) => none
  | (false, none) => s.run.map (fun e => "step " ++ s.name ++ " failed: " ++ e)

/-- Method calls made on the aborting step at index `i`: `Run` is invoked
only when `Check` itself did not error. -/
def failEvents (s : Step) (i : Nat) : List Ev :=
  match s.check.2 with
  | some _ => [Ev.checkEv i]
  | none => [Ev.checkEv i, Ev.runEv i]

/-- Embedding of `CloneDepsStep` (`internal/setup/clone.go`): its one field. -/
structure CloneDepsStep where
  HiveMCPDir : String

/-- Embedding of `CloneDepsStep.Check`: the body is `return false, nil`. -/
def CloneDepsStep.Check (_ : CloneDepsStep) : Bool × Option Err :=
  (false, none)

/-- Embedding of `CloneDepsStep.Name`. -/
def CloneDepsStep.Name (_ : CloneDepsStep) : String :=
  "Download Clojure dependencies"

/-- View of a `CloneDepsStep` as a `Step`.  `Run` and `Rollback` shell out
to external tools, so their observable results are parameters. -/
def CloneDepsStep.toStep (c : CloneDepsStep) (runRes rollbackRes : Option Err) : Step :=
  ⟨c.Name, c.Check, runRes, rollbackRes⟩

/-! Core characterization lemmas for `runAllAux`. -/

theorem runAllAux_ok (cb : Callbacks) :
    ∀ (steps : List Step) (i : Nat), (∀ s ∈ steps, stepOk s) →
      (runAllAux cb steps i).results = steps.map okResult ∧
      (runAllAux cb steps i).retErr = none ∧
      (runAllAux cb steps i).trace = okTrace steps i := by
  intro steps
  induction steps with
  | nil => intro i _; refine ⟨?_, ?_, ?_⟩ <;> simp [runAllAux, okTrace]
  | cons s rest ih =>
    intro i h
    have hs : stepOk s := h s (by simp)
    have hr := ih (i + 1) (fun t ht => h t (by simp [ht]))
    unfold stepOk stepAbortErr at hs
    rcases hc : s.check with ⟨bdone, oe⟩
    cases oe with
    | some e => rw [hc] at hs; simp at hs
    | none =>
      cases bdone with
      | true =>
        refine ⟨?_, ?_, ?_⟩ <;>
          simp [runAllAux, hc, okResult, okTrace, okEvents, hr.1, hr.2.1, hr.2.2]
      | false =>
        have hrun : s.run = none := by rw [hc] at hs; simpa using hs
        refine ⟨?_, ?_, ?_⟩ <;>
          simp [runAllAux, hc, hrun, okResult, okTrace, okEvents, hr.1, hr.2.1, hr.2.2]

theorem runAllAux_fail (cb : Callbacks) :
    ∀ (pre : List Step) (b : Step) (post : List Step) (i : Nat),
      (∀ s ∈ pre, stepOk s) → ¬ stepOk b →
      (runAllAux cb (pre ++ b :: post) i).results = pre.map okResult ++ [failResult b] ∧
      (runAllAux cb (pre ++ b :: post) i).retErr = wrapAbort b ∧
      (runAllAux cb (pre ++ b :: post) i).trace =
        okTrace pre i ++ failEvents b (i + pre.length) := by
  intro pre
  induction pre with
  | nil =>
    intro b post i _ hb
    unfold stepOk stepAbortErr at hb
    rcases hc : b.check with ⟨bdone, oe⟩
    cases oe with
    | some e =>
      refine ⟨?_, ?_, ?_⟩ <;>
        simp [runAllAux, hc, failResult, stepAbortErr, wrapAbort, failEvents, okTrace]
    | none =>
      cases bdone with
      | true => rw [hc] at hb; simp at hb
      | false =>
        rw [hc] at hb
        rcases hrun : b.run with _ | e
        · rw [hrun] at hb; simp at hb
        · refine ⟨?_, ?_, ?_⟩ <;>
            simp [runAllAux, hc, hrun, failResult, stepAbortErr, wrapAbort, failEvents,
              okTrace]
  | cons s pre ih =>
    intro b post i h hb
    have hs : stepOk s := h s (by simp)
    have hr := ih b post (i + 1) (fun t ht => h t (by simp [ht])) hb
    unfold stepOk stepAbortErr at hs
    rcases hc : s.check with ⟨bdone, oe⟩
    cases oe with
    | some e => rw [hc] at hs; simp at hs
    | none =>
      cases bdone with
      | true =>
        refine ⟨?_, ?_, ?_⟩ <;>
          simp [runAllAux, hc, okResult, okTrace, okEvents, hr.1, hr.2.1, hr.2.2,
            Nat.add_assoc, Nat.add_comm 1 pre.length]
      | false =>
        have hrun : s.run = none := by rw [hc] at hs; simpa using hs
        refine ⟨?_, ?_, ?_⟩ <;>
          simp [runAllAux, hc, hrun, okResult, okTrace, okEvents, hr.1, hr.2.1, hr.2.2,
            Nat.add_assoc, Nat.add_comm 1 pre.length]

theorem steps_decomp :
    ∀ (steps : List Step),
      (∀ s ∈ steps, stepOk s) ∨
      ∃ pre b post, steps = pre ++ b :: post ∧ (∀ s ∈ pre, stepOk s) ∧ ¬ stepOk b := by
  intro steps
  induction steps with
  | nil => exact Or.inl (by simp)
  | cons s rest ih =>
    by_cases hs : stepOk s
    · rcases ih with h | ⟨pre, b, post, heq, hpre, hb⟩
      · refine Or.inl ?_
        intro t ht
        rcases List.mem_cons.mp ht with rfl | ht'
        exacts [hs, h t ht']
      · refine Or.inr ⟨s :: pre, b, post, by simp [heq], ?_, hb⟩
        intro t ht
        rcases List.mem_cons.mp ht with rfl | ht'
        exacts [hs, hpre t ht']
    · exact Or.inr ⟨[], s, rest, rfl, by simp, hs⟩

/-! Lemmas locating events inside traces. -/

theorem okEvents_idx (s : Step) (i : Nat) (ev : Ev) (h : ev ∈ okEvents s i) :
    ev.idx = i := by
  unfold okEvents at h
  by_cases hc : s.check.1 = true <;> simp [hc] at h <;>
    rcases h with rfl | rfl <;> simp [Ev.idx]

theorem runEv_okEvents (s : Step) (i j : Nat) (h : Ev.runEv j ∈ okEvents s i) :
    j = i ∧ s.check.1 = false := by
  unfold okEvents at h
  by_cases hc : s.check.1 = true <;> simp [hc] at h
  exact ⟨h, by simpa using hc⟩

theorem okTrace_idx :
    ∀ (steps : List Step) (i : Nat) (ev : Ev), ev ∈ okTrace steps i →
      i ≤ ev.idx ∧ ev.idx < i + steps.length := by
  intro steps
  induction steps with
  | nil => intro i ev h; simp [okTrace] at h
  | cons s rest ih =>
    intro i ev h
    rcases List.mem_append.mp (by simpa [okTrace] using h) with h1 | h2
    · have h' := okEvents_idx s i ev h1
      simp only [List.length_cons]
      omega
    · have h' := ih (i + 1) ev h2
      simp only [List.length_cons]
      omega

theorem runEv_okTrace :
    ∀ (steps : List Step) (i j : Nat), Ev.runEv j ∈ okTrace steps i →
      ∃ k s, j = i + k ∧ steps[k]? = some s ∧ s.check.1 = false := by
  intro steps
  induction steps with
  | nil => intro i j h; simp [okTrace] at h
  | cons s rest ih =>
    intro i j h
    rcases List.mem_append.mp (by simpa [okTrace] using h) with h1 | h2
    · obtain ⟨rfl, hc⟩ := runEv_okEvents s i j h1
      exact ⟨0, s, by omega, by simp, hc⟩
    · obtain ⟨k, t, rfl, hk, hc⟩ := ih (i + 1) j h2
      exact ⟨k + 1, t, by omega, by simpa using hk, hc⟩

theorem failEvents_idx (b : Step) (i : Nat) (ev : Ev) (h : ev ∈ failEvents b i) :
    ev.idx = i := by
  unfold failEvents at h
  rcases hc : b.check.2 with _ | e <;> rw [hc] at h <;> simp at h <;>
    rcases h with rfl | rfl <;> simp [Ev.idx]

theorem runEv_failEvents (b : Step) (i j : Nat) (h : Ev.runEv j ∈ failEvents b i) :
    j = i ∧ b.check.2 = none := by
  unfold failEvents at h
  rcases hc : b.check.2 with _ | e <;> rw [hc] at h <;> simp at h
  exact ⟨h, rfl⟩

/-! Small auxiliary facts. -/

theorem stepAbortErr_isSome (b : Step) (hb : ¬ stepOk b) : (stepAbortErr b).isSome := by
  unfold stepOk at hb
  exact Option.isSome_iff_ne_none.mpr hb

theorem wrapAbort_isSome (b : Step) (hb : ¬ stepOk b) : (wrapAbort b).isSome := by
  unfold stepOk stepAbortErr at hb
  unfold wrapAbort
  rcases hc : b.check with ⟨bdone, oe⟩
  rw [hc] at hb
  cases oe with
  | some e => simp
  | none =>
    cases bdone with
    | true => simp at hb
    | false =>
      rcases hrun : b.run with _ | e
      · rw [hrun] at hb; simp at hb
      · simp [hrun]

theorem okTrace_append :
    ∀ (A B : List Step) (i : Nat),
      okTrace (A ++ B) i = okTrace A i ++ okTrace B (i + A.length) := by
  intro A
  induction A with
  | nil => intro B i; simp [okTrace]
  | cons s rest ih =>
    intro B i
    have hn : i + 1 + rest.length = i + (rest.length + 1) := by omega
    simp only [List.cons_append, okTrace, List.length_cons, List.append_eq]
    rw [ih, hn, List.append_assoc]

theorem getElem?_middle (pre : List Step) (b : Step) (post : List Step) :
    (pre ++ b :: post)[pre.length]? = some b := by
  rw [List.getElem?_append_right (Nat.le_refl _)]
  simp

theorem rollbackGo_inbounds (steps : List Step) :
    ∀ (L : List Nat), (∀ j ∈ L, j < steps.length) →
      (rollbackGo steps L).1 = L.filterMap (fun j => (steps[j]?).bind rbWrap) ∧
      (rollbackGo steps L).2 = L.map Ev.rollbackEv := by
  intro L
  induction L with
  | nil => intro _; simp [rollbackGo]
  | cons j rest ih =>
    intro h
    have hj : j < steps.length := h j (by simp)
    have hrest := ih (fun k hk => h k (by simp [hk]))
    have hget : steps[j]? = some steps[j] := List.getElem?_eq_getElem hj
    rcases hrb : steps[j].rollback with _ | e
    · refine ⟨?_, ?_⟩ <;>
        simp [rollbackGo, hget, hrb, rbWrap, hrest.1, hrest.2]
    · refine ⟨?_, ?_⟩ <;>
        simp [rollbackGo, hget, hrb, rbWrap, hrest.1, hrest.2]

theorem rollbackGo_oob (steps : List Step) :
    ∀ (L1 L2 : List Nat), (∀ j ∈ L1, steps.length ≤ j) →
      rollbackGo steps (L1 ++ L2) = rollbackGo steps L2 := by
  intro L1
  induction L1 with
  | nil => intro L2 _; simp
  | cons j rest ih =>
    intro L2 h
    have hj : steps.length ≤ j := h j (by simp)
    have hget : steps[j]? = none := List.getElem?_eq_none hj
    simp [rollbackGo, hget, ih L2 (fun k hk => h k (by simp [hk]))]

theorem rollbackGo_idx (steps : List Step) :
    ∀ (L : List Nat) (ev : Ev), ev ∈ (rollbackGo steps L).2 → ev.idx < steps.length := by
  intro L
  induction L with
  | nil => intro ev h; simp [rollbackGo] at h
  | cons j rest ih =>
    intro ev h
    rcases hget : steps[j]? with _ | s
    · rw [show rollbackGo steps (j :: rest) = rollbackGo steps rest from by
        simp [rollbackGo, hget]] at h
      exact ih ev h
    · have hj : j < steps.length := (List.getElem?_eq_some.mp hget).1
      rcases hrb : s.rollback with _ | e <;>
        rw [show (rollbackGo steps (j :: rest)).2 =
              Ev.rollbackEv j :: (rollbackGo steps rest).2 from by
            simp [rollbackGo, hget, hrb]] at h <;>
        rcases List.mem_cons.mp h with rfl | h' <;>
        first
          | simpa [Ev.idx] using hj
          | exact ih ev h'

/-! Claim theorems. -/

/-- Claim C1: when every step before `b` completes and `b` passes its probe
(`Check` returns `(false, nil)`) but `Run` returns an error, `RunAll` records
exactly the results of the completed steps plus one failed result for `b`,
returns the wrapped error naming `b` with the underlying cause, and never
invokes `Check` or `Run` on any later step. -/
theorem runAll_aborts_after_first_run_error (cb : Callbacks) (pre : List Step)
    (b : Step) (post : List Step) (e : Err)
    (hpre : ∀ s ∈ pre, stepOk s) (hcheck : b.check = (false, none))
    (hrun : b.run = some e) :
    (runAll cb (pre ++ b :: post)).results =
        pre.map okResult ++ [⟨b.name, false, some e⟩] ∧
    (runAll cb (pre ++ b :: post)).retErr =
        some ("step " ++ b.name ++ " failed: " ++ e) ∧
    ∀ j, pre.length < j →
      Ev.checkEv j ∉ (runAll cb (pre ++ b :: post)).trace ∧
      Ev.runEv j ∉ (runAll cb (pre ++ b :: post)).trace := by
  have habort : stepAbortErr b = some e := by
    simp [stepAbortErr, hcheck, hrun]
  have hb : ¬ stepOk b := by
    simp [stepOk, habort]
  have h := runAllAux_fail cb pre b post 0 hpre hb
  unfold runAll
  refine ⟨?_, ?_, ?_⟩
  · rw [h.1]
    simp [failResult, habort]
  · rw [h.2.1]
    simp [wrapAbort, hcheck, hrun]
  · intro j hj
    constructor <;> intro hmem <;> rw [h.2.2] at hmem <;>
      rcases List.mem_append.mp hmem with hm | hm
    · have := (okTrace_idx pre 0 _ hm).2
      simp [Ev.idx] at this
      omega
    · have := failEvents_idx b _ _ hm
      simp [Ev.idx] at this
      omega
    · have := (okTrace_idx pre 0 _ hm).2
      simp [Ev.idx] at this
      omega
    · have := failEvents_idx b _ _ hm
      simp [Ev.idx] at this
      omega

/-- Claim C1 witness: a concrete three-step list whose middle step's `Run`
fails, instantiating the abort theorem. -/
theorem runAll_aborts_after_first_run_error_witness :
    (runAll ⟨true, true⟩
        ([⟨"a", (true, none), none, none⟩] ++
          ⟨"b", (false, none), some "x", none⟩ ::
            [⟨"c", (true, none), none, none⟩])).retErr =
      some ("step " ++ "b" ++ " failed: " ++ "x") :=
  (runAll_aborts_after_first_run_error ⟨true, true⟩
    [⟨"a", (true, none), none, none⟩] ⟨"b", (false, none), some "x", none⟩
    [⟨"c", (true, none), none, none⟩] "x" (by decide) rfl rfl).2.1

/-- Claim C3: when every step before `b` completes and `b`'s `Check` itself
returns an error, `Run` is never invoked on `b`, no later step has `Check` or
`Run` invoked, a failed (not skipped) result carrying that error is appended,
and `RunAll` returns the wrapped check error naming `b`. -/
theorem runAll_aborts_on_check_error (cb : Callbacks) (pre : List Step)
    (b : Step) (post : List Step) (e : Err)
    (hpre : ∀ s ∈ pre, stepOk s) (hcheck : b.check.2 = some e) :
    (runAll cb (pre ++ b :: post)).results =
        pre.map okResult ++ [⟨b.name, false, some e⟩] ∧
    (runAll cb (pre ++ b :: post)).retErr =
        some ("check failed for " ++ b.name ++ ": " ++ e) ∧
    Ev.runEv pre.length ∉ (runAll cb (pre ++ b :: post)).trace ∧
    ∀ j, pre.length < j →
      Ev.checkEv j ∉ (runAll cb (pre ++ b :: post)).trace ∧
      Ev.runEv j ∉ (runAll cb (pre ++ b :: post)).trace := by
  rcases hfull : b.check with ⟨bdone, oe⟩
  have hoe : oe = some e := by rw [hfull] at hcheck; exact hcheck
  subst hoe
  have habort : stepAbortErr b = some e := by
    simp [stepAbortErr, hfull]
  have hb : ¬ stepOk b := by
    simp [stepOk, habort]
  have h := runAllAux_fail cb pre b post 0 hpre hb
  unfold runAll
  refine ⟨?_, ?_, ?_, ?_⟩
  · rw [h.1]
    simp [failResult, habort]
  · rw [h.2.1]
    simp [wrapAbort, hfull]
  · intro hmem
    rw [h.2.2] at hmem
    rcases List.mem_append.mp hmem with hm | hm
    · obtain ⟨k, t, hk, hget, -⟩ := runEv_okTrace pre 0 _ hm
      have := (List.getElem?_eq_some.mp hget).1
      omega
    · have := (runEv_failEvents b _ _ hm).2
      rw [hfull] at this
      exact Option.noConfusion this
  · intro j hj
    constructor <;> intro hmem <;> rw [h.2.2] at hmem <;>
      rcases List.mem_append.mp hmem with hm | hm
    · have := (okTrace_idx pre 0 _ hm).2
      simp [Ev.idx] at this
      omega
    · have := failEvents_idx b _ _ hm
      simp [Ev.idx] at this
      omega
    · have := (okTrace_idx pre 0 _ hm).2
      simp [Ev.idx] at this
      omega
    · have := failEvents_idx b _ _ hm
      simp [Ev.idx] at this
      omega

/-- Claim C3 witness: a concrete list whose second step's `Check` errors,
instantiating the check-abort theorem. -/
theorem runAll_aborts_on_check_error_witness :
    (runAll ⟨true, true⟩
        ([⟨"a", (false, none), none, none⟩] ++
          ⟨"b", (false, some "probe"), none, none⟩ ::
            [⟨"c", (false, none), none, none⟩])).retErr =
      some ("check failed for " ++ "b" ++ ": " ++ "probe") :=
  (runAll_aborts_on_check_error ⟨true, true⟩
    [⟨"a", (false, none), none, none⟩] ⟨"b", (false, some "probe"), none, none⟩
    [⟨"c", (false, none), none, none⟩] "probe" (by decide) rfl).2.1

/-- Claim C2: a step whose `Check` returns `(true, nil)` never has `Run`
invoked, is recorded as skipped without error whenever a result exists for it,
and execution continues past it; a list of only such steps makes `RunAll`
return nil without any `Run` call, in this and in any repeated invocation. -/
theorem runAll_skips_done_steps (cb : Callbacks) (steps : List Step) :
    (∀ i s, steps[i]? = some s → s.check = (true, none) →
      Ev.runEv i ∉ (runAll cb steps).trace ∧
      (∀ r, (runAll cb steps).results[i]? = some r → r = ⟨s.name, true, none⟩) ∧
      (i < (runAll cb steps).results.length → i + 1 < steps.length →
        i + 1 < (runAll cb steps).results.length)) ∧
    ((∀ s ∈ steps, s.check = (true, none)) →
      (runAll cb steps).retErr = none ∧
      ∀ j, Ev.runEv j ∉ (runAll cb steps).trace) := by
  unfold runAll
  rcases steps_decomp steps with hok | ⟨pre, b, post, heq, hpre, hb⟩
  · obtain ⟨hres, herr, htr⟩ := runAllAux_ok cb steps 0 hok
    constructor
    · intro i s hget hc
      refine ⟨?_, ?_, ?_⟩
      · intro hmem
        rw [htr] at hmem
        obtain ⟨k, t, hik, hgetk, hfalse⟩ := runEv_okTrace steps 0 i hmem
        have hk : k = i := by omega
        rw [hk, hget] at hgetk
        injection hgetk with hst
        rw [← hst, hc] at hfalse
        simp at hfalse
      · intro r hr
        rw [hres, List.getElem?_map, hget] at hr
        simp at hr
        rw [← hr]
        simp [okResult, hc]
      · rw [hres, List.length_map]
        intro _ h2
        exact h2
    · intro hall
      refine ⟨herr, ?_⟩
      intro j hmem
      rw [htr] at hmem
      obtain ⟨k, t, hik, hgetk, hfalse⟩ := runEv_okTrace steps 0 j hmem
      have ht := List.getElem?_mem hgetk
      rw [hall t ht] at hfalse
      simp at hfalse
  · subst heq
    obtain ⟨hres, herr, htr⟩ := runAllAux_fail cb pre b post 0 hpre hb
    constructor
    · intro i s hget hc
      have hne : i ≠ pre.length := by
        intro hi
        rw [hi, getElem?_middle] at hget
        injection hget with hsb
        apply hb
        simp [stepOk, stepAbortErr, hsb, hc]
      refine ⟨?_, ?_, ?_⟩
      · intro hmem
        rw [htr] at hmem
        rcases List.mem_append.mp hmem with hm | hm
        · obtain ⟨k, t, hik, hgetk, hfalse⟩ := runEv_okTrace pre 0 i hm
          have hklt : k < pre.length := (List.getElem?_eq_some.mp hgetk).1
          have hk : k = i := by omega
          rw [List.getElem?_append_left (by omega)] at hget
          rw [hk, hget] at hgetk
          injection hgetk with hst
          rw [← hst, hc] at hfalse
          simp at hfalse
        · have := (runEv_failEvents b _ _ hm).1
          omega
      · intro r hr
        rw [hres] at hr
        by_cases hilt : i < pre.length
        · rw [List.getElem?_append_left (by simpa using hilt), List.getElem?_map] at hr
          rw [List.getElem?_append_left hilt] at hget
          rw [hget] at hr
          simp at hr
          rw [← hr]
          simp [okResult, hc]
        · have hgt : pre.length < i := by omega
          rw [List.getElem?_append_right (by simp; omega)] at hr
          rw [List.getElem?_eq_none (by simp; omega)] at hr
          exact Option.noConfusion hr
      · rw [hres]
        simp only [List.length_append, List.length_map, List.length_cons,
          List.length_nil]
        intro h1 _
        omega
    · intro hall
      exfalso
      apply hb
      have hcb := hall b (by simp)
      simp [stepOk, stepAbortErr, hcb]

/-- Claim C2 witness: a single always-done step whose `Run` would fail is
skipped, the run succeeds, and its `Run` is never invoked. -/
theorem runAll_skips_done_steps_witness :
    (runAll ⟨true, true⟩ [⟨"a", (true, none), some "boom", none⟩]).retErr = none :=
  ((runAll_skips_done_steps ⟨true, true⟩
    [⟨"a", (true, none), some "boom", none⟩]).2 (by decide)).1

theorem first_fail_len_unique (pre : List Step) (b : Step) (post pre' : List Step)
    (b' : Step) (post' : List Step)
    (heq : pre ++ b :: post = pre' ++ b' :: post')
    (hpre : ∀ s ∈ pre, stepOk s) (hb : ¬ stepOk b)
    (hpre' : ∀ s ∈ pre', stepOk s) (hb' : ¬ stepOk b') :
    pre.length = pre'.length := by
  rcases Nat.lt_trichotomy pre.length pre'.length with hlt | heqn | hgt
  · exfalso
    have h1 : (pre ++ b :: post)[pre.length]? = some b := getElem?_middle ..
    rw [heq, List.getElem?_append_left hlt] at h1
    exact hb (hpre' b (List.getElem?_mem h1))
  · exact heqn
  · exfalso
    have h1 : (pre' ++ b' :: post')[pre'.length]? = some b' := getElem?_middle ..
    rw [← heq, List.getElem?_append_left hgt] at h1
    exact hb' (hpre b' (List.getElem?_mem h1))

/-- Claim C5: the Results sequence always corresponds to a prefix of the Steps
sequence in the same order: it is never longer, the j-th result carries the
j-th step's name, and when the run aborts at its first failing step exactly
one result beyond the completed ones has been appended. -/
theorem runAll_results_are_steps_front (cb : Callbacks) (steps : List Step) :
    (runAll cb steps).results.length ≤ steps.length ∧
    (∀ (j : Nat) (r : Result), (runAll cb steps).results[j]? = some r →
      ∃ s : Step, steps[j]? = some s ∧ r.stepName = s.name) ∧
    (∀ pre b post, steps = pre ++ b :: post → (∀ s ∈ pre, stepOk s) → ¬ stepOk b →
      (runAll cb steps).results.length = pre.length + 1) := by
  unfold runAll
  rcases steps_decomp steps with hok | ⟨pre, b, post, heq, hpre, hb⟩
  · obtain ⟨hres, herr, htr⟩ := runAllAux_ok cb steps 0 hok
    refine ⟨by rw [hres]; simp, ?_, ?_⟩
    · intro j r hr
      rw [hres, List.getElem?_map] at hr
      obtain ⟨s, hs, hrs⟩ := Option.map_eq_some'.mp hr
      exact ⟨s, hs, by rw [← hrs]; rfl⟩
    · intro pre' b' post' heq' _ hb'
      exfalso
      apply hb'
      exact hok b' (by rw [heq']; simp)
  · subst heq
    obtain ⟨hres, herr, htr⟩ := runAllAux_fail cb pre b post 0 hpre hb
    refine ⟨by rw [hres]; simp, ?_, ?_⟩
    · intro j r hr
      rw [hres] at hr
      by_cases hj : j < pre.length
      · rw [List.getElem?_append_left (by simpa using hj), List.getElem?_map] at hr
        obtain ⟨s, hs, hrs⟩ := Option.map_eq_some'.mp hr
        refine ⟨s, ?_, by rw [← hrs]; rfl⟩
        rw [List.getElem?_append_left hj]
        exact hs
      · by_cases hj' : j = pre.length
        · subst hj'
          rw [List.getElem?_append_right (by simp)] at hr
          simp at hr
          refine ⟨b, getElem?_middle .., ?_⟩
          rw [← hr]
          rfl
        · rw [List.getElem?_append_right (by simp; omega)] at hr
          rw [List.getElem?_eq_none (by simp; omega)] at hr
          exact Option.noConfusion hr
    · intro pre' b' post' heq' hpre' hb'
      have hlen := first_fail_len_unique pre' b' post' pre b post heq'.symm hpre' hb' hpre hb
      rw [hres]
      simp [hlen]

/-- Claim C5 witness: three concrete steps whose middle `Run` fails produce
exactly two results. -/
theorem runAll_results_are_steps_front_witness :
    (runAll ⟨true, true⟩
        [⟨"a", (true, none), none, none⟩, ⟨"b", (false, none), some "x", none⟩,
          ⟨"c", (true, none), none, none⟩]).results.length =
      (List.length [(⟨"a", (true, none), none, none⟩ : Step)]) + 1 :=
  (runAll_results_are_steps_front ⟨true, true⟩ _).2.2
    [⟨"a", (true, none), none, none⟩] ⟨"b", (false, none), some "x", none⟩
    [⟨"c", (true, none), none, none⟩] rfl (by decide) (by decide)

/-- Claim C6: `RunAll` returns nil exactly when every step completes (its
`Check` returns no error, and when `Run` is invoked it returns nil), and on
the first failing step it returns that step's wrapped error. -/
theorem runAll_nil_iff_all_ok (cb : Callbacks) (steps : List Step) :
    ((runAll cb steps).retErr = none ↔ ∀ s ∈ steps, stepOk s) ∧
    (∀ pre b post, steps = pre ++ b :: post → (∀ s ∈ pre, stepOk s) → ¬ stepOk b →
      (runAll cb steps).retErr = wrapAbort b) := by
  unfold runAll
  rcases steps_decomp steps with hok | ⟨pre, b, post, heq, hpre, hb⟩
  · obtain ⟨hres, herr, htr⟩ := runAllAux_ok cb steps 0 hok
    refine ⟨⟨fun _ => hok, fun _ => herr⟩, ?_⟩
    intro pre' b' post' heq' _ hb'
    exact absurd (hok b' (by rw [heq']; simp)) hb'
  · subst heq
    obtain ⟨hres, herr, htr⟩ := runAllAux_fail cb pre b post 0 hpre hb
    constructor
    · constructor
      · intro h
        rw [herr] at h
        have := wrapAbort_isSome b hb
        rw [h] at this
        simp at this
      · intro hall
        exact absurd (hall b (by simp)) hb
    · intro pre' b' post' heq' hpre' hb'
      have hlen := first_fail_len_unique pre' b' post' pre b post heq'.symm hpre' hb' hpre hb
      have h1 : (pre' ++ b' :: post')[pre'.length]? = some b' := getElem?_middle ..
      rw [← heq', hlen, getElem?_middle] at h1
      injection h1 with hbb
      rw [herr, hbb]

/-- Claim C6 witness: a single step whose `Run` fails yields the wrapped
step error; a single skipped step yields nil. -/
theorem runAll_nil_iff_all_ok_witness :
    (runAll ⟨true, true⟩ [⟨"b", (false, none), some "x", none⟩]).retErr =
      wrapAbort ⟨"b", (false, none), some "x", none⟩ :=
  (runAll_nil_iff_all_ok ⟨true, true⟩ _).2
    [] ⟨"b", (false, none), some "x", none⟩ [] rfl (by decide) (by decide)

theorem runAllAux_cb_independent (cb₁ cb₂ : Callbacks) :
    ∀ (steps : List Step) (i : Nat),
      (runAllAux cb₁ steps i).results = (runAllAux cb₂ steps i).results ∧
      (runAllAux cb₁ steps i).retErr = (runAllAux cb₂ steps i).retErr ∧
      (runAllAux cb₁ steps i).trace = (runAllAux cb₂ steps i).trace := by
  intro steps
  induction steps with
  | nil => intro i; refine ⟨?_, ?_, ?_⟩ <;> simp [runAllAux]
  | cons s rest ih =>
    intro i
    rcases hc : s.check with ⟨bdone, oe⟩
    cases oe with
    | some e => refine ⟨?_, ?_, ?_⟩ <;> simp [runAllAux, hc]
    | none =>
      cases bdone with
      | true =>
        have h := ih (i + 1)
        refine ⟨?_, ?_, ?_⟩ <;> simp [runAllAux, hc, h.1, h.2.1, h.2.2]
      | false =>
        rcases hr : s.run with _ | e
        · have h := ih (i + 1)
          refine ⟨?_, ?_, ?_⟩ <;> simp [runAllAux, hc, hr, h.1, h.2.1, h.2.2]
        · refine ⟨?_, ?_, ?_⟩ <;> simp [runAllAux, hc, hr]

/-- Claim C7: the observer callbacks do not affect control flow: any two
callback configurations (present or nil) give the same results, the same
returned error and the same trace of `Check` and `Run` invocations. -/
theorem runAll_callbacks_are_observers (cb₁ cb₂ : Callbacks) (steps : List Step) :
    (runAll cb₁ steps).results = (runAll cb₂ steps).results ∧
    (runAll cb₁ steps).retErr = (runAll cb₂ steps).retErr ∧
    (runAll cb₁ steps).trace = (runAll cb₂ steps).trace :=
  runAllAux_cb_independent cb₁ cb₂ steps 0

/-- Claim C9: after one `RunAll` invocation at most the last result carries a
non-nil error, and the returned error is non-nil exactly when the last result
exists and carries a non-nil error. -/
theorem runAll_error_only_last (cb : Callbacks) (steps : List Step) :
    (∀ r ∈ (runAll cb steps).results.dropLast, r.error = none) ∧
    ((runAll cb steps).retErr.isSome ↔
      ∃ r : Result, (runAll cb steps).results.getLast? = some r ∧ r.error.isSome) := by
  unfold runAll
  rcases steps_decomp steps with hok | ⟨pre, b, post, heq, hpre, hb⟩
  · obtain ⟨hres, herr, htr⟩ := runAllAux_ok cb steps 0 hok
    constructor
    · intro r hr
      have hr' : r ∈ List.map okResult steps := by
        rw [← hres]
        exact List.mem_of_mem_dropLast hr
      obtain ⟨t, -, hrt⟩ := by simpa using hr'
      rw [← hrt]
      rfl
    · constructor
      · intro h
        rw [herr] at h
        simp at h
      · rintro ⟨r, hlast, hsome⟩
        have hr' : r ∈ List.map okResult steps := by
          rw [← hres]
          exact List.mem_of_mem_getLast? hlast
        obtain ⟨t, -, hrt⟩ := by simpa using hr'
        rw [← hrt] at hsome
        simp [okResult] at hsome
  · subst heq
    obtain ⟨hres, herr, htr⟩ := runAllAux_fail cb pre b post 0 hpre hb
    constructor
    · intro r hr
      rw [hres] at hr
      have hr' : r ∈ List.map okResult pre := by simpa using hr
      obtain ⟨t, -, hrt⟩ := by simpa using hr'
      rw [← hrt]
      rfl
    · constructor
      · intro _
        refine ⟨failResult b, ?_, stepAbortErr_isSome b hb⟩
        rw [hres]
        simp
      · intro _
        rw [herr]
        exact wrapAbort_isSome b hb

/-- Claim C9 witness: in a run whose second step fails, the first (non-last)
result carries no error. -/
theorem runAll_error_only_last_witness :
    (Result.mk "a" true (none : Option Err)).error = none :=
  (runAll_error_only_last ⟨true, true⟩
    [⟨"a", (true, none), none, none⟩, ⟨"b", (false, none), some "x", none⟩]).1
    ⟨"a", true, none⟩ (by decide)

/-- Claim C4: for an in-range index `i`, `RollbackFrom i` invokes `Rollback`
exactly once on each of steps `i, i-1, ..., 0` in that descending order,
never stops at a rollback error, and returns exactly the wrapped errors of
the failing rollbacks in encounter order. -/
theorem rollbackFrom_reverse_collects_errors (steps : List Step) (i : Nat)
    (h : i < steps.length) :
    (rollbackFrom steps (i : Int)).2 =
      ((List.range (i + 1)).reverse).map Ev.rollbackEv ∧
    (rollbackFrom steps (i : Int)).1 =
      ((List.range (i + 1)).reverse).filterMap (fun j => (steps[j]?).bind rbWrap) := by
  have hpos : rollbackPositions (i : Int) = (List.range (i + 1)).reverse := by
    unfold rollbackPositions
    rw [if_neg (by omega)]
    rw [Int.toNat_natCast]
  have hin : ∀ j ∈ (List.range (i + 1)).reverse, j < steps.length := by
    intro j hj
    simp only [List.mem_reverse, List.mem_range] at hj
    omega
  have hgo := rollbackGo_inbounds steps _ hin
  unfold rollbackFrom
  rw [hpos]
  exact ⟨hgo.2, hgo.1⟩

/-- Claim C4 witness: rolling back from index 2 of three concrete steps
visits indices 2, 1, 0 in order and collects the middle step's error. -/
theorem rollbackFrom_reverse_collects_errors_witness :
    (rollbackFrom
        [⟨"a", (true, none), none, none⟩, ⟨"b", (true, none), none, some "x"⟩,
          ⟨"c", (true, none), none, none⟩] ((2 : Nat) : Int)).2 =
      ((List.range (2 + 1)).reverse).map Ev.rollbackEv :=
  (rollbackFrom_reverse_collects_errors
    [⟨"a", (true, none), none, none⟩, ⟨"b", (true, none), none, some "x"⟩,
      ⟨"c", (true, none), none, none⟩] 2 (by decide)).1

/-- Claim C10: `RollbackFrom` is total and in-bounds-safe for every integer
index: a negative index rolls back nothing, an index at or beyond the end
behaves exactly like the last in-range index, and every `Rollback` invocation
is at an in-bounds position. -/
theorem rollbackFrom_total_and_safe (steps : List Step) (index : Int) :
    (index < 0 → rollbackFrom steps index = ([], [])) ∧
    ((steps.length : Int) ≤ index →
      rollbackFrom steps index = rollbackFrom steps ((steps.length : Int) - 1)) ∧
    (∀ ev ∈ (rollbackFrom steps index).2, ev.idx < steps.length) := by
  refine ⟨?_, ?_, ?_⟩
  · intro hneg
    unfold rollbackFrom rollbackPositions
    rw [if_pos hneg]
    rfl
  · intro hge
    have h0 : ¬ (index < 0) := by omega
    have hNlen : steps.length ≤ index.toNat := by omega
    have hsplit : List.range (index.toNat + 1) =
        List.range steps.length ++
          (List.range (index.toNat + 1 - steps.length)).map (steps.length + ·) := by
      rw [← List.range_add]
      congr 1
      omega
    have hlhs : rollbackFrom steps index = rollbackGo steps ((List.range steps.length).reverse) := by
      unfold rollbackFrom rollbackPositions
      rw [if_neg h0, hsplit, List.reverse_append]
      refine rollbackGo_oob steps _ _ ?_
      intro j hj
      simp only [List.mem_reverse, List.mem_map] at hj
      obtain ⟨k, -, hk⟩ := hj
      omega
    rw [hlhs]
    rcases Nat.eq_zero_or_pos steps.length with hz | hp
    · rw [hz]
      unfold rollbackFrom rollbackPositions
      rw [if_pos (by omega)]
      rfl
    · unfold rollbackFrom rollbackPositions
      rw [if_neg (by omega)]
      congr 2
      have : ((steps.length : Int) - 1).toNat = steps.length - 1 := by omega
      rw [this]
      congr 1
      omega
  · intro ev hev
    exact rollbackGo_idx steps _ ev hev

/-- Claim C10 witness: on a one-step list, a negative index rolls back
nothing, and index 5 behaves like the in-range index 0. -/
theorem rollbackFrom_total_and_safe_witness :
    rollbackFrom [(⟨"a", (true, none), none, some "x"⟩ : Step)] (-3) = ([], []) ∧
    rollbackFrom [(⟨"a", (true, none), none, some "x"⟩ : Step)] 5 =
      rollbackFrom [(⟨"a", (true, none), none, some "x"⟩ : Step)]
        ((List.length [(⟨"a", (true, none), none, some "x"⟩ : Step)] : Int) - 1) :=
  ⟨(rollbackFrom_total_and_safe [⟨"a", (true, none), none, some "x"⟩] (-3)).1
      (by decide),
   (rollbackFrom_total_and_safe [⟨"a", (true, none), none, some "x"⟩] 5).2.1
      (by decide)⟩

theorem runAll_runs_undone_step (cb : Callbacks) (pre : List Step) (s : Step)
    (post : List Step) (hpre : ∀ t ∈ pre, stepOk t) (hc : s.check = (false, none)) :
    Ev.runEv pre.length ∈ (runAll cb (pre ++ s :: post)).trace := by
  unfold runAll
  by_cases hs : stepOk s
  · rcases steps_decomp post with hok | ⟨pre', b', post', heq, hpre', hb'⟩
    · have hall : ∀ t ∈ pre ++ s :: post, stepOk t := by
        intro t ht
        rcases List.mem_append.mp ht with h1 | h2
        · exact hpre t h1
        · rcases List.mem_cons.mp h2 with rfl | h3
          exacts [hs, hok t h3]
      obtain ⟨-, -, htr⟩ := runAllAux_ok cb _ 0 hall
      rw [htr, okTrace_append]
      refine List.mem_append.mpr (Or.inr ?_)
      have hhd : okTrace (s :: post) (0 + pre.length) =
          okEvents s (0 + pre.length) ++ okTrace post (0 + pre.length + 1) := rfl
      rw [hhd]
      refine List.mem_append.mpr (Or.inl ?_)
      simp [okEvents, hc]
    · subst heq
      have hassoc : pre ++ s :: (pre' ++ b' :: post') =
          (pre ++ s :: pre') ++ b' :: post' := by
        simp
      rw [hassoc]
      have hpre2 : ∀ t ∈ pre ++ s :: pre', stepOk t := by
        intro t ht
        rcases List.mem_append.mp ht with h1 | h2
        · exact hpre t h1
        · rcases List.mem_cons.mp h2 with rfl | h3
          exacts [hs, hpre' t h3]
      obtain ⟨-, -, htr⟩ := runAllAux_fail cb (pre ++ s :: pre') b' post' 0 hpre2 hb'
      rw [htr]
      refine List.mem_append.mpr (Or.inl ?_)
      rw [okTrace_append]
      refine List.mem_append.mpr (Or.inr ?_)
      have hhd : okTrace (s :: pre') (0 + pre.length) =
          okEvents s (0 + pre.length) ++ okTrace pre' (0 + pre.length + 1) := rfl
      rw [hhd]
      refine List.mem_append.mpr (Or.inl ?_)
      simp [okEvents, hc]
  · obtain ⟨-, -, htr⟩ := runAllAux_fail cb pre s post 0 hpre hs
    rw [htr]
    refine List.mem_append.mpr (Or.inr ?_)
    simp [failEvents, hc]

/-- Claim C8: `CloneDepsStep.Check` returns `(false, nil)` for every value of
the step's state, so whenever the runner reaches this step it invokes its
`Run` — the idempotency skip path is never taken. -/
theorem cloneDepsStep_never_done (c : CloneDepsStep) (cb : Callbacks)
    (runRes rollbackRes : Option Err) (pre post : List Step)
    (hpre : ∀ t ∈ pre, stepOk t) :
    CloneDepsStep.Check c = (false, none) ∧
    Ev.runEv pre.length ∈
      (runAll cb (pre ++ c.toStep runRes rollbackRes :: post)).trace :=
  ⟨rfl, runAll_runs_undone_step cb pre _ post hpre rfl⟩

/-- Claim C8 witness: a concrete dependency-download step placed after one
completed step has its `Run` invoked. -/
theorem cloneDepsStep_never_done_witness :
    CloneDepsStep.Check ⟨"~/hive-mcp"⟩ = (false, none) ∧
    Ev.runEv (List.length [(⟨"a", (true, none), none, none⟩ : Step)]) ∈
      (runAll ⟨true, true⟩
        ([⟨"a", (true, none), none, none⟩] ++
          CloneDepsStep.toStep ⟨"~/hive-mcp"⟩ none none :: [])).trace :=
  cloneDepsStep_never_done ⟨"~/hive-mcp"⟩ ⟨true, true⟩ none none
    [⟨"a", (true, none), none, none⟩] [] (by decide)

end HiveSetup
